import Mathlib

/-!
Shallow embedding of the text-transformation pipeline and the scheduled
batch-processing pipeline of the telegram-summary-bot worker
(src/index.ts, src/config.ts, src/utils/markdown.ts, src/utils/telegram.ts).

Strings are modelled as `List Char` (JavaScript strings are sequences of
code units; all inputs of interest here stay inside the BMP, where one
code unit is one code point, so `Char` is a faithful unit).  Recursions
that a JavaScript regex engine performs by scanning are modelled with an
explicit fuel argument equal to the input length, so every definition is
a computable structural recursion.
-/

/-! ## Markup escaper (src/index.ts lines 16-17 and 59-61)

The source builds a global regex from the reserved-character array and
replaces every occurrence `c` of a reserved character by `\c`:

  const MARKDOWN_V2_RESERVED_CHARS = ['_','*','[',']','(',')','~','`','>','#','+','-','=','|','{','}','.','!'];
  const MARKDOWN_V2_ESCAPE_REGEX = new RegExp(...);
  function escapeMarkdownV2(text) { return text.replace(MARKDOWN_V2_ESCAPE_REGEX, '\\$1'); }

A single-character-class global replace touches each character
independently, left to right, so it is exactly a flatMap over the
characters of the input.
-/

def backquoteChar : Char := Char.ofNat 96

def MARKDOWN_V2_RESERVED_CHARS : List Char :=
  ['_', '*', '[', ']', '(', ')', '~', backquoteChar, '>', '#', '+', '-', '=', '|',
   '\x7b', '\x7d', '.', '!']

def escapeMarkdownV2 (text : List Char) : List Char :=
  text.flatMap (fun c => if c ∈ MARKDOWN_V2_RESERVED_CHARS then ['\\', c] else [c])

/-! ## Superscript rendering (src/index.ts lines 68-86)

  function toSuperscript(num) {
    const superscripts = { '0': '⁰', ..., '9': '⁹' };
    return num.toString().split('').map((digit) => superscripts[digit]).join('');
  }

`num.toString()` for a natural number is its decimal digit string, most
significant digit first; we model it with a fuel-based recursion
(`natToString`).  A digit outside the table would map to `undefined`,
which `join('')` renders as the empty string; `superDigitList` returns
`[]` in that (unreachable for naturals) case.
-/

def natToStringAux : Nat → Nat → List Char
  | 0, _ => []
  | fuel + 1, n =>
    if n < 10 then [Nat.digitChar n]
    else natToStringAux fuel (n / 10) ++ [Nat.digitChar (n % 10)]

def natToString (n : Nat) : List Char := natToStringAux (n + 1) n

def superDigitList (c : Char) : List Char :=
  if c = '0' then ['⁰']
  else if c = '1' then ['¹']
  else if c = '2' then ['²']
  else if c = '3' then ['³']
  else if c = '4' then ['⁴']
  else if c = '5' then ['⁵']
  else if c = '6' then ['⁶']
  else if c = '7' then ['⁷']
  else if c = '8' then ['⁸']
  else if c = '9' then ['⁹']
  else []

def toSuperscript (num : Nat) : List Char :=
  (natToString num).flatMap superDigitList

/-- Spec-side designated glyph for a single decimal digit, used to state the
superscript-rendering claim independently of the source's string pipeline. -/
def superGlyph (d : Nat) : Char :=
  if d = 0 then '⁰'
  else if d = 1 then '¹'
  else if d = 2 then '²'
  else if d = 3 then '³'
  else if d = 4 then '⁴'
  else if d = 5 then '⁵'
  else if d = 6 then '⁶'
  else if d = 7 then '⁷'
  else if d = 8 then '⁸'
  else '⁹'

/-! ## Collapsible-block formatter (src/index.ts lines 156-158)

  function foldText(text) { return '**>' + text.replace(/\n/g, '\n>') + '||'; }

The global single-character replace of a newline by newline-then-quote is
again a flatMap.
-/

def foldBody (text : List Char) : List Char :=
  text.flatMap (fun c => if c = '\n' then ['\n', '>'] else [c])

def foldText (text : List Char) : List Char :=
  ('*' :: '*' :: '>' :: []) ++ foldBody text ++ ['|', '|']

/-- Lines of a text, splitting at every newline character (a trailing
newline yields a final empty line, as `String.prototype.split('\n')`
does). -/
def splitOnNl : List Char → List (List Char)
  | [] => [[]]
  | c :: rest =>
    if c = '\n' then [] :: splitOnNl rest
    else
      match splitOnNl rest with
      | [] => [[c]]
      | l :: ls => (c :: l) :: ls

/-- A line carries the quote marker when it begins with the quote
character `>` or with the expandable-quote opener `**>`. -/
def carriesQuoteMark (l : List Char) : Bool :=
  match l with
  | '>' :: _ => true
  | '*' :: '*' :: '>' :: _ => true
  | _ => false

def countQuoteLines (text : List Char) : Nat :=
  (splitOnNl text).countP carriesQuoteMark

/-! ## Link deduplicator (src/index.ts lines 97-130, src/utils/markdown.ts)

  const linkPattern = /\[([^\]]+)\]\(([^)]+)\)/g;
  return text.replace(linkPattern, (match, displayText, url) => {
    if (displayText !== url) { return match; }
    if (!linkMap.has(url)) { linkMap.set(url, linkCounter++); }
    const linkNumber = linkMap.get(url)!;
    const linkPrefix = useEnglish ? 'link' : prefix;
    return `[$\x7blinkPrefix\x7d$\x7btoSuperscript(linkNumber)\x7d]($\x7burl\x7d)`;
  });

The regex is deterministic: `[^\]]+` (greedy) followed by the literal `]`
can only match the maximal run of non-`]` characters up to the first `]`
(backtracking would place `]` on a non-`]` character), and likewise
`[^)]+` followed by `)`.  `matchLinkAt` implements the attempt at one
position; `scanLinks` implements the global left-to-right replace (on
failure at a position the engine advances one character; on success it
continues after the match).  The callback's closure state (`linkMap`,
`linkCounter`) is threaded through as `LinkState`.
-/

structure LinkOptions where
  pfx : List Char
  useEnglish : Bool
deriving DecidableEq

/-- Default options of `processMarkdownLinks`: prefix 引用, Chinese format. -/
def defaultLinkOptions : LinkOptions :=
  LinkOptions.mk ("引用".toList) false

structure LinkState where
  linkMap : List (List Char × Nat)
  linkCounter : Nat
deriving DecidableEq

def initLinkState : LinkState := LinkState.mk [] 1

/-- The raw text of a markdown link match: the characters the regex consumed. -/
def rawLink (displayText url : List Char) : List Char :=
  '[' :: displayText ++ ']' :: '(' :: url ++ [')']

/-- The replacement the callback returns for a self-identical link with
assigned ordinal `n`. -/
def renderRef (opts : LinkOptions) (n : Nat) (url : List Char) : List Char :=
  '[' :: (if opts.useEnglish then ("link".toList) else opts.pfx) ++ toSuperscript n
    ++ ']' :: '(' :: url ++ [')']

/-- One callback invocation: returns the emitted text and the new closure
state, exactly as the source callback does. -/
def stepLink (opts : LinkOptions) (st : LinkState) (displayText url : List Char) :
    List Char × LinkState :=
  if displayText ≠ url then (rawLink displayText url, st)
  else
    match st.linkMap.lookup url with
    | some n => (renderRef opts n url, st)
    | none =>
      (renderRef opts st.linkCounter url,
       LinkState.mk (st.linkMap ++ [(url, st.linkCounter)]) (st.linkCounter + 1))

/-- Attempt to match `\[([^\]]+)\]\(([^)]+)\)` at the head of `s`; returns
the two capture groups and the remainder after the match. -/
def matchLinkAt (s : List Char) : Option (List Char × List Char × List Char) :=
  match s with
  | [] => none
  | c :: rest =>
    if c = '[' then
      let a := rest.takeWhile (fun d => decide (d ≠ ']'))
      if a = [] then none
      else
        match rest.dropWhile (fun d => decide (d ≠ ']')) with
        | [] => none
        | x :: afterBr =>
          if x = ']' then
            match afterBr with
            | [] => none
            | y :: rest2 =>
              if y = '(' then
                let b := rest2.takeWhile (fun d => decide (d ≠ ')'))
                if b = [] then none
                else
                  match rest2.dropWhile (fun d => decide (d ≠ ')')) with
                  | [] => none
                  | z :: rest3 => if z = ')' then some (a, b, rest3) else none
              else none
          else none
    else none

/-- Global regex replace, one character of progress per unit of fuel
(a successful match consumes at least six characters, so fuel equal to
the input length always suffices; exhausted fuel returns the remainder
unchanged, which can only happen on the empty remainder). -/
def scanLinks (opts : LinkOptions) : Nat → LinkState → List Char → List Char
  | 0, _, s => s
  | _ + 1, _, [] => []
  | fuel + 1, st, c :: rest =>
    match matchLinkAt (c :: rest) with
    | some (a, b, rest2) =>
      let pr := stepLink opts st a b
      pr.1 ++ scanLinks opts fuel pr.2 rest2
    | none => c :: scanLinks opts fuel st rest

def processMarkdownLinks (text : List Char) (options : LinkOptions) : List Char :=
  scanLinks options text.length initLinkState text

/-- Sanity check: the worked example of the specification, section 8. -/
theorem sanity_dedup_spec_example :
    processMarkdownLinks
      ("see [http://a](http://a) and [http://a](http://a) and [x](http://b)".toList)
      (LinkOptions.mk ("ref".toList) false) =
      ("see [ref¹](http://a) and [ref¹](http://a) and [x](http://b)".toList) := by
  decide

/-- Sanity check: default options, two distinct targets, one repeat. -/
theorem sanity_dedup_default :
    processMarkdownLinks ("[a](a) [b](b) [a](a)".toList) defaultLinkOptions =
      ("[引用¹](a) [引用²](b) [引用¹](a)".toList) := by decide

/-! ## Configuration (src/config.ts)
-/

/-- Keywords whose exact-match messages are ignored (config.ts line 5). -/
def IGNORED_KEYWORDS : List (List Char) :=
  ["签到".toList, "打卡".toList, "查找".toList]

/-- Group ids for which the scheduled summary is not delivered
(config.ts line 61, `cronConfig.skipSummaryGroupIds`). -/
def skipSummaryGroupIds : List Int := [-1001687785734]

/-! ## Message permalink (src/index.ts lines 37-49)

  const groupIdNum = Math.trunc(Number(r.groupId));
  const groupIdStr = groupIdNum.toString();
  const processedId = groupIdStr.startsWith('-100') ? groupIdStr.slice(4)
                                                    : Math.abs(groupIdNum).toString();
  return `https://t.me/c/$\x7bprocessedId\x7d/$\x7br.messageId\x7d`;

We model the already-truncated integer group id as `Int`; `toString` on an
`Int` is the sign-and-decimal-digits string, as in JavaScript.
-/

def getMessageLink (groupId : Int) (messageId : Int) : List Char :=
  let groupIdStr := (toString groupId).toList
  let processedId :=
    if ("-100".toList).isPrefixOf groupIdStr then groupIdStr.drop 4
    else (toString groupId.natAbs).toList
  ("https://t.me/c/".toList) ++ processedId ++ '/' :: (toString messageId).toList

/-! ## Batch scheduler (src/index.ts lines 266-271)

  const batch = Math.floor(date.getMinutes() / 6); // 0 <= batch < 10
  for (const [id, group] of groups.entries()) {
    if (id % 10 !== batch) { continue; }
    ... process group ...
  }

`batchOfMinute` is the shard index computed from the wall-clock minute;
`shardAux b i l` collects, in order, the elements of `l` whose absolute
zero-based position (starting at `i`) is congruent to `b` modulo 10 -
exactly the elements the loop body processes.
-/

def batchOfMinute (minute : Nat) : Nat := minute / 6

def shardAux (b : Nat) : Nat → List α → List α
  | _, [] => []
  | i, x :: rest =>
    if i % 10 = b then x :: shardAux b (i + 1) rest else shardAux b (i + 1) rest

def shardGroups (b : Nat) (groups : List α) : List α := shardAux b 0 groups

/-! ## Scheduled per-group processing (src/index.ts lines 269-321)

For each group of the current shard the loop:
  1. fetches the trailing-24h window from the store (modelled as the
     `window` field of `GroupInfo`, the store being an external
     collaborator) - there is no emptiness check on the result;
  2. awaits the model call `getGenModel(env).chat.completions.create(...)`
     built from the window - with no try/catch: if the call rejects, the
     exception propagates out of the `for` loop and the remaining groups
     of the shard are never reached (modelled by `modelOk`: a `false`
     result ends the trace after the attempted call);
  3. only then tests `cronConfig.skipSummaryGroupIds.includes(...)` and
     `continue`s without sending when the id is listed;
  4. otherwise posts the composed summary via sendMessage.
-/

structure GroupInfo where
  groupId : Int
  window : List (List Char)
deriving DecidableEq

inductive TickEffect where
  | modelCall (groupId : Int) (window : List (List Char))
  | send (groupId : Int)
deriving DecidableEq

def runShard (modelOk : Int → Bool) (skipIds : List Int) :
    List GroupInfo → List TickEffect
  | [] => []
  | g :: rest =>
    if modelOk g.groupId then
      TickEffect.modelCall g.groupId g.window ::
        ((if g.groupId ∈ skipIds then [] else [TickEffect.send g.groupId]) ++
          runShard modelOk skipIds rest)
    else [TickEffect.modelCall g.groupId g.window]

/-- One scheduled tick at wall-clock minute `minute` over snapshot list
`groups`: process the current shard in order. -/
def scheduledTick (minute : Nat) (modelOk : Int → Bool)
    (groups : List GroupInfo) : List TickEffect :=
  runShard modelOk skipSummaryGroupIds (shardGroups (batchOfMinute minute) groups)

/-! ## The /summary command handler (src/index.ts lines 473-526)

  const summary = text.split(' ')[1];
  try {
    const test = parseInt(summary);
    if (Number.isNaN(test)) { throw ...; }
    if (test < 0) { throw ...; }
    if (!Number.isFinite(test)) { throw ...; }
  } catch (e) { await bot.reply('请输入要查询的时间范围/消息数量...'); return; }
  ...database query (hours range or latest-N capped at 4000)...
  if (results.length > 0) { ...model call... ...reply... }

`parseInt` is an external number parser; its result is a JavaScript
number that is NaN, +Infinity, -Infinity, or an integral finite value -
modelled by `JsNum`.  The handler embedding takes that parse result, the
`endsWith('h')` flag of the raw argument, and the query result the store
would return, and produces the trace of externally visible effects.
-/

inductive JsNum where
  | nan
  | posInf
  | negInf
  | int (n : Int)
deriving DecidableEq

def jsIsNaN : JsNum → Bool
  | JsNum.nan => true
  | _ => false

/-- The test `test < 0`: false for NaN (every comparison with NaN is
false), true for -Infinity and negative integers. -/
def jsLtZero : JsNum → Bool
  | JsNum.negInf => true
  | JsNum.int n => n < 0
  | _ => false

def jsIsFinite : JsNum → Bool
  | JsNum.int _ => true
  | _ => false

def jsToInt : JsNum → Int
  | JsNum.int n => n
  | _ => 0

inductive SumEffect where
  | replyUsage
  | dbHours (hours : Int)
  | dbLatest (count : Int)
  | modelCall
  | sendSummary
deriving DecidableEq

def summaryHandler (test : JsNum) (endsWithH : Bool)
    (queryResults : List (List Char)) : List SumEffect :=
  if jsIsNaN test then [SumEffect.replyUsage]
  else if jsLtZero test then [SumEffect.replyUsage]
  else if !jsIsFinite test then [SumEffect.replyUsage]
  else
    (if endsWithH then [SumEffect.dbHours (jsToInt test)]
     else [SumEffect.dbLatest (min (jsToInt test) 4000)]) ++
      (if queryResults.isEmpty then [] else [SumEffect.modelCall, SumEffect.sendSummary])

/-! ## The ':message' handler, text case (src/index.ts lines 577-618)

  let content = msg.text || '';
  if (IGNORED_KEYWORDS.includes(content)) { return new Response('ok'); }
  const fwd = msg.forward_from?.last_name;
  const replyTo = msg.reply_to_message?.message_id;
  if (fwd) { content = `转发自 $\x7bfwd\x7d: $\x7bcontent\x7d`; }
  if (replyTo) { content = `回复 $\x7blink\x7d: $\x7bcontent\x7d`; }
  if (content.startsWith('http') && !content.includes(' ')) { content = await extractAllOGInfo(content); }
  ...INSERT INTO Messages(id, ...) VALUES (getMessageLink(...), ...)...

`extractAllOGInfo` is an external fetch, modelled by the parameter `og`.
The exact-match ignore test runs on the raw text, before any rewriting.
-/

inductive MsgEffect where
  | insertRow (id : List Char) (content : List Char)
deriving DecidableEq

def messageHandler (groupId : Int) (messageId : Int) (text : List Char)
    (fwd : Option (List Char)) (replyTo : Option Int)
    (og : List Char → List Char) : List MsgEffect :=
  if text ∈ IGNORED_KEYWORDS then []
  else
    let content1 :=
      match fwd with
      | some f => ("转发自 ".toList) ++ f ++ (": ".toList) ++ text
      | none => text
    let content2 :=
      match replyTo with
      | some rid => ("回复 ".toList) ++ getMessageLink groupId rid ++ (": ".toList) ++ content1
      | none => content1
    let content3 :=
      if ("http".toList).isPrefixOf content2 ∧ ¬ ' ' ∈ content2 then og content2
      else content2
    [MsgEffect.insertRow (getMessageLink groupId messageId) content3]

/-- Sanity check: supergroup ids drop the -100 marker in permalinks. -/
theorem sanity_link_supergroup :
    getMessageLink (-1001234567890) 7 = ("https://t.me/c/1234567890/7".toList) := by
  decide

/-- Sanity check: other private groups use the absolute value of the id. -/
theorem sanity_link_private :
    getMessageLink (-987654321) 7 = ("https://t.me/c/987654321/7".toList) := by
  decide

/-- Sanity check: shard 1 of a three-element snapshot is its second element. -/
theorem sanity_shard : shardGroups 1 [10, 11, 12] = [11] := by decide

/-- Sanity check: escaping inserts a backslash before an underscore. -/
theorem sanity_escape : escapeMarkdownV2 ("a_b".toList) = ("a\\_b".toList) := by decide

/-- Sanity check: two-digit superscript rendering. -/
theorem sanity_superscript : toSuperscript 12 = ['¹', '²'] := by decide

/-- Sanity check: folding a two-line text. -/
theorem sanity_fold : foldText ("a\nb".toList) = ("**>a\n>b||".toList) := by decide

/-! ## Lemmas about line splitting -/

theorem splitOnNl_ne_nil (s : List Char) : splitOnNl s ≠ [] := by
  induction s with
  | nil => simp [splitOnNl]
  | cons c rest ih =>
    by_cases hc : c = '\n'
    · simp [splitOnNl, hc]
    · cases h : splitOnNl rest with
      | nil => simp [splitOnNl, hc, h]
      | cons l ls => simp [splitOnNl, hc, h]

theorem splitOnNl_no_nl (s : List Char) (h : '\n' ∉ s) : splitOnNl s = [s] := by
  induction s with
  | nil => rfl
  | cons c rest ih =>
    have hc : ¬ c = '\n' := fun e => h (by simp [e])
    have h' : '\n' ∉ rest := fun m => h (by simp [m])
    simp [splitOnNl, hc, ih h']

theorem splitOnNl_append_nl (a b : List Char) (h : '\n' ∉ a) :
    splitOnNl (a ++ '\n' :: b) = a :: splitOnNl b := by
  induction a with
  | nil => simp [splitOnNl]
  | cons c a' ih =>
    have hc : ¬ c = '\n' := fun e => h (by simp [e])
    have h' : '\n' ∉ a' := fun m => h (by simp [m])
    simp [splitOnNl, hc, ih h']

theorem splitOnNl_cons_ne (c : Char) (t : List Char) (hc : ¬ c = '\n') :
    ∃ l ls, splitOnNl t = l :: ls ∧ splitOnNl (c :: t) = (c :: l) :: ls := by
  cases h : splitOnNl t with
  | nil => exact absurd h (splitOnNl_ne_nil t)
  | cons l ls => exact ⟨l, ls, rfl, by simp [splitOnNl, hc, h]⟩

theorem carriesQuoteMark_of_head (l : List Char) (h : l.head? = some '>') :
    carriesQuoteMark l = true := by
  cases l with
  | nil => simp at h
  | cons c t =>
    simp [List.head?] at h
    subst h
    rfl

theorem foldBody_lines (s : List Char) :
    ∀ mid : List Char, '\n' ∉ mid →
      (splitOnNl ('>' :: (mid ++ (foldBody s ++ ['|', '|'])))).length = s.count '\n' + 1 ∧
      ∀ l ∈ splitOnNl ('>' :: (mid ++ (foldBody s ++ ['|', '|']))), l.head? = some '>' := by
  induction s with
  | nil =>
    intro mid hm
    have hnn : '\n' ∉ '>' :: (mid ++ (foldBody [] ++ ['|', '|'])) := by
      simp [foldBody]
      intro hmem
      exact hm hmem
    rw [splitOnNl_no_nl _ hnn]
    refine ⟨by simp, ?_⟩
    intro l hl
    simp at hl
    subst hl
    rfl
  | cons c rest ih =>
    intro mid hm
    by_cases hc : c = '\n'
    · subst hc
      have hrw : '>' :: (mid ++ (foldBody ('\n' :: rest) ++ ['|', '|'])) =
          ('>' :: mid) ++ '\n' :: ('>' :: ([] ++ (foldBody rest ++ ['|', '|']))) := by
        simp [foldBody]
      have hnm : '\n' ∉ '>' :: mid := by
        intro hmem
        rcases List.mem_cons.mp hmem with h1 | h1
        · exact absurd h1.symm (by decide)
        · exact hm h1
      rw [hrw, splitOnNl_append_nl _ _ hnm]
      obtain ⟨h1, h2⟩ := ih [] (by simp)
      refine ⟨?_, ?_⟩
      · simp only [List.length_cons, h1, List.count_cons]
        simp
      · intro l hl
        rcases List.mem_cons.mp hl with h3 | h3
        · subst h3
          rfl
        · exact h2 l h3
    · have hrw : '>' :: (mid ++ (foldBody (c :: rest) ++ ['|', '|'])) =
          '>' :: ((mid ++ [c]) ++ (foldBody rest ++ ['|', '|'])) := by
        simp [foldBody, hc]
      have hm' : '\n' ∉ mid ++ [c] := by
        intro hmem
        rcases List.mem_append.mp hmem with h1 | h1
        · exact hm h1
        · simp at h1
          exact hc h1.symm
      rw [hrw]
      obtain ⟨h1, h2⟩ := ih (mid ++ [c]) hm'
      refine ⟨?_, h2⟩
      rw [h1]
      simp [List.count_cons, hc]

theorem countP_eq_length_of_all {p : List Char → Bool} (ls : List (List Char))
    (h : ∀ l ∈ ls, p l = true) : ls.countP p = ls.length := by
  induction ls with
  | nil => simp
  | cons l ls ih =>
    rw [List.countP_cons, ih (fun x hx => h x (List.mem_cons_of_mem _ hx)),
      h l (List.mem_cons_self _ _)]
    simp

/-- C9: for every input string t, foldText(t) starts with the fixed opening
marker `**>` and ends with the fixed closing marker `||`, and the number of
lines of the output carrying a quote marker equals the number of newline
characters of t plus one (the implicit first line). -/
theorem foldText_markers_and_quote_lines (s : List Char) :
    List.IsPrefix ("**>".toList) (foldText s) ∧
    List.IsSuffix ("||".toList) (foldText s) ∧
    countQuoteLines (foldText s) = s.count '\n' + 1 := by
  have hpre : List.IsPrefix ("**>".toList) (foldText s) := by
    refine ⟨foldBody s ++ ['|', '|'], ?_⟩
    simp [foldText]
  have hsuf : List.IsSuffix ("||".toList) (foldText s) := by
    refine ⟨('*' :: '*' :: '>' :: []) ++ foldBody s, ?_⟩
    simp [foldText]
  refine ⟨hpre, hsuf, ?_⟩
  obtain ⟨h1, h2⟩ := foldBody_lines s [] (by simp)
  simp only [List.nil_append] at h1 h2
  obtain ⟨l0, ls0, e0, e0'⟩ :=
    splitOnNl_cons_ne '*' ('>' :: (foldBody s ++ ['|', '|'])) (by decide)
  obtain ⟨l1, ls1, e1, e1'⟩ :=
    splitOnNl_cons_ne '*' ('*' :: ('>' :: (foldBody s ++ ['|', '|']))) (by decide)
  rw [e0'] at e1
  have hl1 : l1 = '*' :: l0 := (List.cons.injEq .. ▸ e1).1.symm
  have hls1 : ls1 = ls0 := (List.cons.injEq .. ▸ e1).2.symm
  have hsplit : splitOnNl (foldText s) = ('*' :: '*' :: l0) :: ls0 := by
    have : foldText s = '*' :: ('*' :: ('>' :: (foldBody s ++ ['|', '|']))) := by
      simp [foldText]
    rw [this, e1', hl1, hls1]
  have hl0 : l0.head? = some '>' := h2 l0 (e0 ▸ List.mem_cons_self _ _)
  obtain ⟨t0, ht0⟩ : ∃ t0, l0 = '>' :: t0 := by
    cases l0 with
    | nil => simp at hl0
    | cons c t =>
      simp [List.head?] at hl0
      exact ⟨t, by rw [hl0]⟩
  have hcarry : carriesQuoteMark ('*' :: '*' :: l0) = true := by
    rw [ht0]
    rfl
  have hall : ∀ l ∈ ls0, carriesQuoteMark l = true := by
    intro l hl
    exact carriesQuoteMark_of_head l (h2 l (e0 ▸ List.mem_cons_of_mem _ hl))
  have hlen : l0 :: ls0 = splitOnNl ('>' :: (foldBody s ++ ['|', '|'])) := e0.symm
  have hlen' : ls0.length + 1 = s.count '\n' + 1 := by
    have := h1
    rw [e0] at this
    simpa using this
  unfold countQuoteLines
  rw [hsplit, List.countP_cons, hcarry, countP_eq_length_of_all ls0 hall]
  simpa using hlen'

/-! ## The escaping claim -/

def keepsPlain (c : Char) : Bool :=
  decide (c ∉ MARKDOWN_V2_RESERVED_CHARS ∧ c ≠ '\\')

theorem escape_reserved_preceded (s : List Char) :
    ∀ i c, (escapeMarkdownV2 s)[i]? = some c → c ∈ MARKDOWN_V2_RESERVED_CHARS →
      0 < i ∧ (escapeMarkdownV2 s)[i - 1]? = some '\\' := by
  induction s with
  | nil =>
    intro i c hc _
    simp [escapeMarkdownV2] at hc
  | cons x s' ih =>
    intro i c hc hr
    by_cases hx : x ∈ MARKDOWN_V2_RESERVED_CHARS
    · have he : escapeMarkdownV2 (x :: s') = '\\' :: x :: escapeMarkdownV2 s' := by
        simp [escapeMarkdownV2, hx]
      rw [he] at hc ⊢
      cases i with
      | zero =>
        simp at hc
        subst hc
        exact absurd hr (by decide)
      | succ j =>
        cases j with
        | zero => exact ⟨by omega, by simp⟩
        | succ k =>
          simp at hc
          obtain ⟨hk, h2⟩ := ih k c hc hr
          refine ⟨by omega, ?_⟩
          obtain ⟨m, rfl⟩ : ∃ m, k = m + 1 := ⟨k - 1, by omega⟩
          simpa using h2
    · have he : escapeMarkdownV2 (x :: s') = x :: escapeMarkdownV2 s' := by
        simp [escapeMarkdownV2, hx]
      rw [he] at hc ⊢
      cases i with
      | zero =>
        simp at hc
        subst hc
        exact absurd hr hx
      | succ j =>
        simp at hc
        obtain ⟨hj, h2⟩ := ih j c hc hr
        refine ⟨by omega, ?_⟩
        obtain ⟨m, rfl⟩ : ∃ m, j = m + 1 := ⟨j - 1, by omega⟩
        simpa using h2

/-- C7: escapeMarkdownV2 escapes exactly the reserved characters: every
reserved character of the output is immediately preceded by a backslash,
the input survives as a subsequence of the output (no character of the
input is altered or reordered, only escape markers are inserted), and the
characters that are neither reserved nor the escape marker are exactly
those of the input, in their original order. -/
theorem escapeMarkdownV2_spec (s : List Char) :
    (∀ i c, (escapeMarkdownV2 s)[i]? = some c → c ∈ MARKDOWN_V2_RESERVED_CHARS →
      0 < i ∧ (escapeMarkdownV2 s)[i - 1]? = some '\\') ∧
    List.Sublist s (escapeMarkdownV2 s) ∧
    (escapeMarkdownV2 s).filter keepsPlain = s.filter keepsPlain := by
  refine ⟨escape_reserved_preceded s, ?_, ?_⟩
  · induction s with
    | nil => simp [escapeMarkdownV2]
    | cons x s' ih =>
      by_cases hx : x ∈ MARKDOWN_V2_RESERVED_CHARS
      · have he : escapeMarkdownV2 (x :: s') = '\\' :: x :: escapeMarkdownV2 s' := by
          simp [escapeMarkdownV2, hx]
        rw [he]
        exact List.Sublist.cons '\\' (List.Sublist.cons₂ x ih)
      · have he : escapeMarkdownV2 (x :: s') = x :: escapeMarkdownV2 s' := by
          simp [escapeMarkdownV2, hx]
        rw [he]
        exact List.Sublist.cons₂ x ih
  · induction s with
    | nil => simp [escapeMarkdownV2]
    | cons x s' ih =>
      by_cases hx : x ∈ MARKDOWN_V2_RESERVED_CHARS
      · have he : escapeMarkdownV2 (x :: s') = '\\' :: x :: escapeMarkdownV2 s' := by
          simp [escapeMarkdownV2, hx]
        have hpx : keepsPlain x = false := by
          simp [keepsPlain, hx]
        have hpb : keepsPlain '\\' = false := by decide
        rw [he]
        simp only [List.filter_cons, hpx, hpb, Bool.false_eq_true, if_false]
        exact ih
      · have he : escapeMarkdownV2 (x :: s') = x :: escapeMarkdownV2 s' := by
          simp [escapeMarkdownV2, hx]
        rw [he]
        simp only [List.filter_cons]
        rw [ih]

/-- Witness for the escaping claim: the underscore of the input "_" sits at
output position 1, preceded by the backslash at position 0. -/
theorem escapeMarkdownV2_spec_witness :
    0 < 1 ∧ (escapeMarkdownV2 ['_'])[1 - 1]? = some '\\' :=
  (escapeMarkdownV2_spec ['_']).1 1 '_' (by decide) (by decide)

/-! ## The superscript claim -/

theorem natToStringAux_fuel (fuel1 : Nat) :
    ∀ fuel2 n, n < fuel1 → n < fuel2 → natToStringAux fuel1 n = natToStringAux fuel2 n := by
  induction fuel1 with
  | zero =>
    intro fuel2 n h1 _
    omega
  | succ f ih =>
    intro fuel2 n h1 h2
    cases fuel2 with
    | zero => omega
    | succ g =>
      by_cases h10 : n < 10
      · simp [natToStringAux, h10]
      · have hdiv : n / 10 < n := Nat.div_lt_self (by omega) (by omega)
        simp only [natToStringAux, h10, if_false]
        rw [ih g (n / 10) (by omega) (by omega)]

theorem natToString_step (n : Nat) (h : 10 ≤ n) :
    natToString n = natToString (n / 10) ++ [Nat.digitChar (n % 10)] := by
  have hdiv : n / 10 < n := Nat.div_lt_self (by omega) (by omega)
  unfold natToString
  have h1 : natToStringAux (n + 1) n =
      natToStringAux n (n / 10) ++ [Nat.digitChar (n % 10)] := by
    simp [natToStringAux, Nat.not_lt.mpr h]
  rw [h1, natToStringAux_fuel n (n / 10 + 1) (n / 10) (by omega) (by omega)]

theorem superDigitList_digitChar (d : Nat) (h : d ≤ 9) :
    superDigitList (Nat.digitChar d) = [superGlyph d] := by
  interval_cases d <;> decide

/-- C8: toSuperscript maps each ordinal 0-9 to its designated superscript
glyph, and for n at least 10 renders digit-wise: the rendering of n is the
rendering of its leading digits followed by the glyph of its last digit
(hence the concatenation of the single-digit glyphs of n's decimal digits
in order). -/
theorem toSuperscript_digits (n : Nat) :
    (n ≤ 9 → toSuperscript n = [superGlyph n]) ∧
    (10 ≤ n → toSuperscript n = toSuperscript (n / 10) ++ [superGlyph (n % 10)]) := by
  constructor
  · intro h
    have h1 : natToString n = [Nat.digitChar n] := by
      simp [natToString, natToStringAux, Nat.lt_succ_of_le h, show n < 10 by omega]
    unfold toSuperscript
    rw [h1]
    simp only [List.flatMap_cons, List.flatMap_nil, List.append_nil]
    exact superDigitList_digitChar n h
  · intro h
    unfold toSuperscript
    rw [natToString_step n h]
    rw [List.flatMap_append]
    simp only [List.flatMap_cons, List.flatMap_nil, List.append_nil]
    rw [superDigitList_digitChar (n % 10) (by omega)]

/-- Witness for the superscript claim at n = 7 and n = 12. -/
theorem toSuperscript_digits_witness :
    toSuperscript 7 = [superGlyph 7] ∧
    toSuperscript 12 = toSuperscript (12 / 10) ++ [superGlyph (12 % 10)] :=
  ⟨(toSuperscript_digits 7).1 (by decide), (toSuperscript_digits 12).2 (by decide)⟩

/-! ## The scheduler claims -/

theorem shardAux_mem {α : Type} (b : Nat) (l : List α) :
    ∀ i x, x ∈ shardAux b i l ↔
      ∃ j, ∃ h : j < l.length, (i + j) % 10 = b ∧ l.get ⟨j, h⟩ = x := by
  induction l with
  | nil =>
    intro i x
    simp [shardAux]
  | cons y rest ih =>
    intro i x
    constructor
    · intro hx
      by_cases hb : i % 10 = b
      · rw [shardAux, if_pos hb] at hx
        rcases List.mem_cons.mp hx with rfl | hx'
        · exact ⟨0, by simp, by simpa using hb, rfl⟩
        · obtain ⟨j, hj, hmod, hget⟩ := (ih (i + 1) x).mp hx'
          refine ⟨j + 1, by simpa using hj, ?_, by simpa using hget⟩
          have harith : i + (j + 1) = i + 1 + j := by omega
          rw [harith]
          exact hmod
      · rw [shardAux, if_neg hb] at hx
        obtain ⟨j, hj, hmod, hget⟩ := (ih (i + 1) x).mp hx
        refine ⟨j + 1, by simpa using hj, ?_, by simpa using hget⟩
        have harith : i + (j + 1) = i + 1 + j := by omega
        rw [harith]
        exact hmod
    · rintro ⟨j, hj, hmod, hget⟩
      cases j with
      | zero =>
        have hb : i % 10 = b := by simpa using hmod
        rw [shardAux, if_pos hb]
        simp at hget
        exact hget ▸ List.mem_cons_self _ _
      | succ k =>
        have hmem : x ∈ shardAux b (i + 1) rest := by
          refine (ih (i + 1) x).mpr ⟨k, by simpa using hj, ?_, by simpa using hget⟩
          have harith : i + 1 + k = i + (k + 1) := by omega
          rw [harith]
          exact hmod
        rw [shardAux]
        by_cases hb : i % 10 = b
        · rw [if_pos hb]
          exact List.mem_cons_of_mem _ hmem
        · rw [if_neg hb]
          exact hmem

/-- C2: the shard index computed from a wall-clock minute below 60 equals
floor(minute/6) mod 10 and lies below 10; a snapshot element belongs to
shard b exactly when it sits at a zero-based position congruent to b
modulo 10; every position is selected by exactly one shard index; and the
union of the ten shards is the whole snapshot list. -/
theorem scheduler_shard_coverage (α : Type) :
    (∀ minute, minute < 60 →
      batchOfMinute minute = minute / 6 % 10 ∧ batchOfMinute minute < 10) ∧
    (∀ (groups : List α) (b : Nat) (x : α),
      x ∈ shardGroups b groups ↔
        ∃ j, ∃ h : j < groups.length, j % 10 = b ∧ groups.get ⟨j, h⟩ = x) ∧
    (∀ j : Nat, ∃! b, b < 10 ∧ j % 10 = b) ∧
    (∀ (groups : List α) (x : α),
      x ∈ groups ↔ ∃ b, b < 10 ∧ x ∈ shardGroups b groups) := by
  refine ⟨?_, ?_, ?_, ?_⟩
  · intro minute h
    unfold batchOfMinute
    omega
  · intro groups b x
    unfold shardGroups
    rw [shardAux_mem b groups 0 x]
    constructor
    · rintro ⟨j, hj, hmod, hget⟩
      exact ⟨j, hj, by simpa using hmod, hget⟩
    · rintro ⟨j, hj, hmod, hget⟩
      exact ⟨j, hj, by simpa using hmod, hget⟩
  · intro j
    refine ⟨j % 10, ⟨Nat.mod_lt _ (by omega), rfl⟩, ?_⟩
    intro y hy
    exact hy.2.symm
  · intro groups x
    constructor
    · intro hx
      obtain ⟨⟨j, hj⟩, hget⟩ := List.mem_iff_get.mp hx
      refine ⟨j % 10, Nat.mod_lt _ (by omega), ?_⟩
      unfold shardGroups
      exact (shardAux_mem (j % 10) groups 0 x).mpr ⟨j, hj, by simp, hget⟩
    · rintro ⟨b, _, hx⟩
      unfold shardGroups at hx
      obtain ⟨j, hj, _, hget⟩ := (shardAux_mem b groups 0 x).mp hx
      exact hget ▸ List.get_mem groups j hj

/-- Witness for the scheduler claim: minute 13 maps to shard 2, and the
element 5 of the snapshot [4, 5, 6] is reached through some shard. -/
theorem scheduler_shard_coverage_witness :
    (batchOfMinute 13 = 13 / 6 % 10 ∧ batchOfMinute 13 < 10) ∧
    ((5 : Int) ∈ [(4 : Int), 5, 6] ↔ ∃ b, b < 10 ∧ (5 : Int) ∈ shardGroups b [4, 5, 6]) :=
  ⟨(scheduler_shard_coverage Int).1 13 (by decide),
   (scheduler_shard_coverage Int).2.2.2 [4, 5, 6] 5⟩

/-! ## The scheduled-loop claims -/

theorem runShard_modelCall_mem (modelOk : Int → Bool) (skipIds : List Int) :
    ∀ (l : List GroupInfo) (g : GroupInfo), g ∈ l →
      (∀ h ∈ l, modelOk h.groupId = true) →
      TickEffect.modelCall g.groupId g.window ∈ runShard modelOk skipIds l := by
  intro l
  induction l with
  | nil =>
    intro g hg _
    simp at hg
  | cons y rest ih =>
    intro g hg hok
    have hy : modelOk y.groupId = true := hok y (List.mem_cons_self _ _)
    rcases List.mem_cons.mp hg with rfl | hg'
    · simp [runShard, hy]
    · have hmem := ih g hg' (fun h hh => hok h (List.mem_cons_of_mem _ hh))
      simp only [runShard, hy, if_true]
      exact List.mem_cons_of_mem _ (List.mem_append.mpr (Or.inr hmem))

theorem runShard_send_mem (modelOk : Int → Bool) (skipIds : List Int) :
    ∀ (l : List GroupInfo) (g : GroupInfo), g ∈ l →
      (∀ h ∈ l, modelOk h.groupId = true) →
      g.groupId ∉ skipIds →
      TickEffect.send g.groupId ∈ runShard modelOk skipIds l := by
  intro l
  induction l with
  | nil =>
    intro g hg _ _
    simp at hg
  | cons y rest ih =>
    intro g hg hok hns
    have hy : modelOk y.groupId = true := hok y (List.mem_cons_self _ _)
    rcases List.mem_cons.mp hg with rfl | hg'
    · simp [runShard, hy, hns]
    · have hmem := ih g hg' (fun h hh => hok h (List.mem_cons_of_mem _ hh)) hns
      simp only [runShard, hy, if_true]
      exact List.mem_cons_of_mem _ (List.mem_append.mpr (Or.inr hmem))

theorem runShard_send_not_mem (modelOk : Int → Bool) (skipIds : List Int)
    (gid : Int) (hs : gid ∈ skipIds) :
    ∀ l : List GroupInfo, TickEffect.send gid ∉ runShard modelOk skipIds l := by
  intro l
  induction l with
  | nil => simp [runShard]
  | cons y rest ih =>
    by_cases hy : modelOk y.groupId
    · by_cases hk : y.groupId ∈ skipIds
      · simp [runShard, hy, hk, ih]
      · have hne : ¬ y.groupId = gid := fun e => hk (e ▸ hs)
        have hne' : ¬ gid = y.groupId := fun e => hne e.symm
        simp [runShard, hy, hk, ih, hne']
    · simp [runShard, hy]

/-- C3 counterexample: a snapshot containing one group whose trailing-24h
window is empty.  The claim says the group is skipped with no model call
and no send; the scheduled loop has no emptiness test, so the tick both
invokes the model (on the empty window) and sends the summary. -/
theorem scheduled_empty_window_counterexample :
    scheduledTick 0 (fun _ => true) [GroupInfo.mk 100 []] =
      [TickEffect.modelCall 100 [], TickEffect.send 100] := by decide

/-- C3 amended: in the scheduled loop a group of the current shard whose
trailing-24h window is empty is not skipped: the model is invoked on the
empty window and, unless the group id is on the configured skip list, the
summary is sent (assuming no earlier model call of the shard raised). -/
theorem scheduled_empty_window_processed (minute : Nat) (modelOk : Int → Bool)
    (groups : List GroupInfo) (g : GroupInfo)
    (hg : g ∈ shardGroups (batchOfMinute minute) groups)
    (hw : g.window = [])
    (hok : ∀ h ∈ shardGroups (batchOfMinute minute) groups, modelOk h.groupId = true) :
    TickEffect.modelCall g.groupId [] ∈ scheduledTick minute modelOk groups ∧
    (g.groupId ∉ skipSummaryGroupIds →
      TickEffect.send g.groupId ∈ scheduledTick minute modelOk groups) := by
  constructor
  · have := runShard_modelCall_mem modelOk skipSummaryGroupIds
      (shardGroups (batchOfMinute minute) groups) g hg hok
    rw [hw] at this
    exact this
  · intro hns
    exact runShard_send_mem modelOk skipSummaryGroupIds
      (shardGroups (batchOfMinute minute) groups) g hg hok hns

/-- Witness for the amended C3 claim at a one-group snapshot. -/
theorem scheduled_empty_window_processed_witness :
    TickEffect.modelCall 100 [] ∈ scheduledTick 0 (fun _ => true) [GroupInfo.mk 100 []] ∧
    ((100 : Int) ∉ skipSummaryGroupIds →
      TickEffect.send 100 ∈ scheduledTick 0 (fun _ => true) [GroupInfo.mk 100 []]) :=
  scheduled_empty_window_processed 0 (fun _ => true) [GroupInfo.mk 100 []]
    (GroupInfo.mk 100 []) (by decide) rfl (by decide)

/-- An eleven-group snapshot whose shard 0 consists of the groups with ids
100 (position 0) and 110 (position 10). -/
def cronAbortGroups : List GroupInfo :=
  [GroupInfo.mk 100 [], GroupInfo.mk 101 [], GroupInfo.mk 102 [],
   GroupInfo.mk 103 [], GroupInfo.mk 104 [], GroupInfo.mk 105 [],
   GroupInfo.mk 106 [], GroupInfo.mk 107 [], GroupInfo.mk 108 [],
   GroupInfo.mk 109 [], GroupInfo.mk 110 []]

/-- C4 failing input: the scheduled loop awaits the model call with no
try/catch (src/index.ts line 279), so when the call for the shard's first
group (id 100) raises, the remaining group of the shard (id 110) is never
processed: the tick's trace ends at the failed call, with no model call
and no send for group 110 - the loop does not continue to the next group. -/
theorem scheduled_model_failure_aborts_shard :
    shardGroups (batchOfMinute 0) cronAbortGroups =
      [GroupInfo.mk 100 [], GroupInfo.mk 110 []] ∧
    scheduledTick 0 (fun gid => decide (gid ≠ 100)) cronAbortGroups =
      [TickEffect.modelCall 100 []] ∧
    TickEffect.modelCall 110 [] ∉ scheduledTick 0 (fun gid => decide (gid ≠ 100)) cronAbortGroups := by
  decide

/-- C5: a shard group whose id is on the configured skip list still gets
its model call (the call precedes the skip test, consuming the model
budget), and no send for that id occurs anywhere in the tick. -/
theorem scheduled_skip_list_budget_no_send (minute : Nat) (modelOk : Int → Bool)
    (groups : List GroupInfo) (g : GroupInfo)
    (hg : g ∈ shardGroups (batchOfMinute minute) groups)
    (hskip : g.groupId ∈ skipSummaryGroupIds)
    (hok : ∀ h ∈ shardGroups (batchOfMinute minute) groups, modelOk h.groupId = true) :
    TickEffect.modelCall g.groupId g.window ∈ scheduledTick minute modelOk groups ∧
    TickEffect.send g.groupId ∉ scheduledTick minute modelOk groups :=
  ⟨runShard_modelCall_mem modelOk skipSummaryGroupIds
      (shardGroups (batchOfMinute minute) groups) g hg hok,
   runShard_send_not_mem modelOk skipSummaryGroupIds g.groupId hskip
      (shardGroups (batchOfMinute minute) groups)⟩

/-- Witness for C5: the silenced group -1001687785734 at shard position 0. -/
theorem scheduled_skip_list_budget_no_send_witness :
    TickEffect.modelCall (-1001687785734) [] ∈
      scheduledTick 0 (fun _ => true) [GroupInfo.mk (-1001687785734) []] ∧
    TickEffect.send (-1001687785734) ∉
      scheduledTick 0 (fun _ => true) [GroupInfo.mk (-1001687785734) []] :=
  scheduled_skip_list_budget_no_send 0 (fun _ => true)
    [GroupInfo.mk (-1001687785734) []] (GroupInfo.mk (-1001687785734) [])
    (by decide) (by decide) (by decide)

/-! ## The /summary argument-validation claim -/

/-- C6: an argument parsing as NaN, negative, or non-finite makes the
handler reply with the usage message and return - the trace contains no
database query and no model call; conversely any trace that reaches the
store or the model comes from an argument passing all three checks. -/
theorem summaryHandler_rejects_malformed (test : JsNum) (endsWithH : Bool)
    (queryResults : List (List Char)) :
    ((jsIsNaN test = true ∨ jsLtZero test = true ∨ jsIsFinite test = false) →
      summaryHandler test endsWithH queryResults = [SumEffect.replyUsage]) ∧
    ((SumEffect.modelCall ∈ summaryHandler test endsWithH queryResults ∨
      (∃ n, SumEffect.dbHours n ∈ summaryHandler test endsWithH queryResults) ∨
      (∃ n, SumEffect.dbLatest n ∈ summaryHandler test endsWithH queryResults)) →
      jsIsNaN test = false ∧ jsLtZero test = false ∧ jsIsFinite test = true) := by
  by_cases h1 : jsIsNaN test = true
  · refine ⟨fun _ => by simp [summaryHandler, h1], ?_⟩
    intro hmem
    simp [summaryHandler, h1] at hmem
  · by_cases h2 : jsLtZero test = true
    · refine ⟨fun _ => by simp [summaryHandler, h1, h2], ?_⟩
      intro hmem
      simp [summaryHandler, h1, h2] at hmem
    · by_cases h3 : jsIsFinite test = true
      · refine ⟨?_, ?_⟩
        · intro h
          rcases h with h | h | h
          · exact absurd h h1
          · exact absurd h h2
          · rw [h3] at h
            exact absurd h (by decide)
        · intro _
          exact ⟨Bool.not_eq_true _ ▸ h1, Bool.not_eq_true _ ▸ h2, h3⟩
      · refine ⟨fun _ => by simp [summaryHandler, h1, h2, h3], ?_⟩
        intro hmem
        simp [summaryHandler, h1, h2, h3] at hmem

/-- Witness for the /summary validation claim: a NaN parse yields exactly
the usage reply. -/
theorem summaryHandler_rejects_malformed_witness :
    summaryHandler JsNum.nan false [] = [SumEffect.replyUsage] :=
  (summaryHandler_rejects_malformed JsNum.nan false []).1 (Or.inl (by decide))

/-! ## The ignored-keyword claim -/

/-- C10: the ':message' handler stores nothing (empty trace) exactly when
the raw text equals one of the ignored keywords; a text that merely starts
with an ignored keyword but is longer is stored (the trace is one insert). -/
theorem messageHandler_ignore_iff (groupId messageId : Int) (text : List Char)
    (fwd : Option (List Char)) (replyTo : Option Int) (og : List Char → List Char) :
    (messageHandler groupId messageId text fwd replyTo og = [] ↔
      text ∈ IGNORED_KEYWORDS) ∧
    (∀ kw ∈ IGNORED_KEYWORDS, ∀ rest : List Char, rest ≠ [] → text = kw ++ rest →
      ∃ i c, messageHandler groupId messageId text fwd replyTo og =
        [MsgEffect.insertRow i c]) := by
  have hlen : ∀ u ∈ IGNORED_KEYWORDS, u.length = 2 := by decide
  constructor
  · by_cases ht : text ∈ IGNORED_KEYWORDS
    · simp [messageHandler, ht]
    · simp [messageHandler, ht]
  · intro kw hkw rest hrest htext
    have hne : text ∉ IGNORED_KEYWORDS := by
      intro hmem
      have h2 : text.length = 2 := hlen text hmem
      have hk2 : kw.length = 2 := hlen kw hkw
      have : rest.length ≠ 0 := fun e => hrest (List.length_eq_zero.mp e)
      rw [htext, List.length_append, hk2] at h2
      omega
    simp only [messageHandler, if_neg hne]
    exact ⟨_, _, rfl⟩

/-- Witness for the ignored-keyword claim: the keyword 签到 followed by one
more character is stored rather than ignored. -/
theorem messageHandler_ignore_iff_witness :
    ∃ i c, messageHandler 1 2 ("签到".toList ++ ['x']) none none (fun s => s) =
      [MsgEffect.insertRow i c] :=
  (messageHandler_ignore_iff 1 2 ("签到".toList ++ ['x']) none none (fun s => s)).2
    ("签到".toList) (by decide) ['x'] (by decide) rfl

/-! ## Lemmas about the link scanner -/

theorem takeWhile_append_stop (p : Char → Bool) (a : List Char)
    (hall : ∀ c ∈ a, p c = true) (x : Char) (hx : p x = false) (rest : List Char) :
    (a ++ x :: rest).takeWhile p = a ∧ (a ++ x :: rest).dropWhile p = x :: rest := by
  induction a with
  | nil => simp [List.takeWhile_cons, List.dropWhile_cons, hx]
  | cons c a' ih =>
    have hc : p c = true := hall c (List.mem_cons_self _ _)
    have h' := ih (fun d hd => hall d (List.mem_cons_of_mem _ hd))
    simp [List.takeWhile_cons, List.dropWhile_cons, hc, h'.1, h'.2]

theorem matchLinkAt_cons_ne (c : Char) (rest : List Char) (hc : ¬ c = '[') :
    matchLinkAt (c :: rest) = none := by
  simp [matchLinkAt, hc]

theorem matchLinkAt_rawLink (a b rest : List Char) (ha : a ≠ []) (ha2 : ']' ∉ a)
    (hb : b ≠ []) (hb2 : ')' ∉ b) :
    matchLinkAt (rawLink a b ++ rest) = some (a, b, rest) := by
  have hshape : rawLink a b ++ rest = '[' :: (a ++ ']' :: ('(' :: (b ++ ')' :: rest))) := by
    simp [rawLink]
  obtain ⟨hta, hda⟩ := takeWhile_append_stop (fun d => decide (d ≠ ']')) a
    (fun c hc => by simp; exact fun e => ha2 (e ▸ hc)) ']' (by simp)
    ('(' :: (b ++ ')' :: rest))
  obtain ⟨htb, hdb⟩ := takeWhile_append_stop (fun d => decide (d ≠ ')')) b
    (fun c hc => by simp; exact fun e => hb2 (e ▸ hc)) ')' (by simp) rest
  rw [hshape]
  simp only [matchLinkAt, if_pos rfl, hta, hda, htb, hdb]
  simp [ha, hb]

theorem matchLinkAt_decomp (s a b rest : List Char)
    (h : matchLinkAt s = some (a, b, rest)) :
    s = rawLink a b ++ rest ∧ a ≠ [] ∧ b ≠ [] := by
  cases s with
  | nil => simp [matchLinkAt] at h
  | cons c r =>
    by_cases hc : c = '['
    · subst hc
      rw [matchLinkAt] at h
      rw [if_pos rfl] at h
      by_cases hA : r.takeWhile (fun d => decide (d ≠ ']')) = []
      · rw [if_pos hA] at h
        exact absurd h (by simp)
      · rw [if_neg hA] at h
        cases hD : r.dropWhile (fun d => decide (d ≠ ']')) with
        | nil =>
          rw [hD] at h
          exact absurd h (by simp)
        | cons x afterBr =>
          rw [hD] at h
          dsimp only at h
          by_cases hx : x = ']'
          · rw [if_pos hx] at h
            cases afterBr with
            | nil => exact absurd h (by simp)
            | cons y rest2 =>
              dsimp only at h
              by_cases hy : y = '('
              · rw [if_pos hy] at h
                by_cases hB : rest2.takeWhile (fun d => decide (d ≠ ')')) = []
                · rw [if_pos hB] at h
                  exact absurd h (by simp)
                · rw [if_neg hB] at h
                  cases hD2 : rest2.dropWhile (fun d => decide (d ≠ ')')) with
                  | nil =>
                    rw [hD2] at h
                    exact absurd h (by simp)
                  | cons z rest3 =>
                    rw [hD2] at h
                    dsimp only at h
                    by_cases hz : z = ')'
                    · rw [if_pos hz] at h
                      simp only [Option.some.injEq, Prod.mk.injEq] at h
                      obtain ⟨h1, h2, h3⟩ := h
                      subst hx
                      subst hy
                      subst hz
                      rw [h1] at hA
                      rw [h2] at hB
                      have hr : r = a ++ ']' :: '(' :: rest2 := by
                        conv_lhs =>
                          rw [← @List.takeWhile_append_dropWhile _
                            (fun d => decide (d ≠ ']')) r]
                        rw [hD, h1]
                      have hr2 : rest2 = b ++ ')' :: rest := by
                        conv_lhs =>
                          rw [← @List.takeWhile_append_dropWhile _
                            (fun d => decide (d ≠ ')')) rest2]
                        rw [hD2, h2, h3]
                      refine ⟨?_, hA, hB⟩
                      rw [hr, hr2]
                      simp [rawLink]
                    · rw [if_neg hz] at h
                      exact absurd h (by simp)
              · rw [if_neg hy] at h
                exact absurd h (by simp)
          · rw [if_neg hx] at h
            exact absurd h (by simp)
    · rw [matchLinkAt_cons_ne c r hc] at h
      exact absurd h (by simp)

theorem matchLinkAt_length (s a b rest : List Char)
    (h : matchLinkAt s = some (a, b, rest)) : rest.length + 6 ≤ s.length := by
  obtain ⟨hs, ha, hb⟩ := matchLinkAt_decomp s a b rest h
  have h1 : 1 ≤ a.length := by
    cases a with
    | nil => exact absurd rfl ha
    | cons _ _ => simp
  have h2 : 1 ≤ b.length := by
    cases b with
    | nil => exact absurd rfl hb
    | cons _ _ => simp
  have hlen : s.length = a.length + b.length + 4 + rest.length := by
    rw [hs]
    simp [rawLink]
    omega
  omega

theorem scanLinks_no_bracket (opts : LinkOptions) :
    ∀ s : List Char, '[' ∉ s → ∀ (fuel : Nat) (st : LinkState),
      scanLinks opts fuel st s = s := by
  intro s
  induction s with
  | nil =>
    intro _ fuel st
    cases fuel <;> rfl
  | cons c rest ih =>
    intro hmem fuel st
    have hc : ¬ c = '[' := fun e => hmem (by simp [e])
    have hr : '[' ∉ rest := fun m => hmem (by simp [m])
    cases fuel with
    | zero => rfl
    | succ f =>
      have hnone := matchLinkAt_cons_ne c rest hc
      simp [scanLinks, hnone, ih hr f st]

theorem scanLinks_fuel (opts : LinkOptions) :
    ∀ (fuel : Nat) (st : LinkState) (s : List Char), s.length ≤ fuel →
      scanLinks opts fuel st s = scanLinks opts s.length st s := by
  intro fuel
  induction fuel using Nat.strong_induction_on with
  | _ fuel ih =>
    intro st s hlen
    cases s with
    | nil => cases fuel <;> rfl
    | cons c rest =>
      cases fuel with
      | zero => simp at hlen
      | succ f =>
        have hlen' : rest.length ≤ f := by
          simp only [List.length_cons] at hlen
          omega
        cases hm : matchLinkAt (c :: rest) with
        | none =>
          have h1 : scanLinks opts (f + 1) st (c :: rest) =
              c :: scanLinks opts f st rest := by
            simp [scanLinks, hm]
          have h2 : scanLinks opts (c :: rest).length st (c :: rest) =
              c :: scanLinks opts rest.length st rest := by
            simp [scanLinks, hm]
          rw [h1, h2, ih f (by omega) st rest hlen']
        | some abr =>
          obtain ⟨a, b, rest2⟩ := abr
          have hlen6 := matchLinkAt_length (c :: rest) a b rest2 hm
          simp only [List.length_cons] at hlen6
          have h1 : scanLinks opts (f + 1) st (c :: rest) =
              (stepLink opts st a b).1 ++
                scanLinks opts f (stepLink opts st a b).2 rest2 := by
            simp [scanLinks, hm]
          have h2 : scanLinks opts (c :: rest).length st (c :: rest) =
              (stepLink opts st a b).1 ++
                scanLinks opts rest.length (stepLink opts st a b).2 rest2 := by
            simp [scanLinks, hm]
          rw [h1, h2,
            ih f (by omega) (stepLink opts st a b).2 rest2 (by omega),
            ih rest.length (by omega) (stepLink opts st a b).2 rest2 (by omega)]

theorem scanLinks_skip (opts : LinkOptions) :
    ∀ t : List Char, '[' ∉ t → ∀ (rest : List Char) (st : LinkState),
      scanLinks opts (t ++ rest).length st (t ++ rest) =
        t ++ scanLinks opts rest.length st rest := by
  intro t
  induction t with
  | nil =>
    intro _ rest st
    simp
  | cons c t' ih =>
    intro hmem rest st
    have hc : ¬ c = '[' := fun e => hmem (by simp [e])
    have ht' : '[' ∉ t' := fun m => hmem (by simp [m])
    have hnone := matchLinkAt_cons_ne c (t' ++ rest) hc
    have h1 : scanLinks opts ((t' ++ rest).length + 1) st (c :: (t' ++ rest)) =
        c :: scanLinks opts (t' ++ rest).length st (t' ++ rest) := by
      simp [scanLinks, hnone]
    show scanLinks opts ((t' ++ rest).length + 1) st (c :: (t' ++ rest)) =
      (c :: t') ++ scanLinks opts rest.length st rest
    rw [h1, ih ht' rest st]
    rfl

theorem scanLinks_link (opts : LinkOptions) (a b rest : List Char) (st : LinkState)
    (ha : a ≠ []) (ha2 : ']' ∉ a) (hb : b ≠ []) (hb2 : ')' ∉ b) :
    scanLinks opts (rawLink a b ++ rest).length st (rawLink a b ++ rest) =
      (stepLink opts st a b).1 ++
        scanLinks opts rest.length (stepLink opts st a b).2 rest := by
  have hm := matchLinkAt_rawLink a b rest ha ha2 hb hb2
  have hshape : rawLink a b ++ rest =
      '[' :: (a ++ (']' :: ('(' :: (b ++ (')' :: rest))))) := by
    simp [rawLink]
  rw [hshape] at hm
  have h1 : scanLinks opts ((a ++ (']' :: ('(' :: (b ++ (')' :: rest))))).length + 1) st
      ('[' :: (a ++ (']' :: ('(' :: (b ++ (')' :: rest)))))) =
      (stepLink opts st a b).1 ++
        scanLinks opts (a ++ (']' :: ('(' :: (b ++ (')' :: rest))))).length
          (stepLink opts st a b).2 rest := by
    simp [scanLinks, hm]
  rw [hshape]
  show scanLinks opts ((a ++ (']' :: ('(' :: (b ++ (')' :: rest))))).length + 1) st
      ('[' :: (a ++ (']' :: ('(' :: (b ++ (')' :: rest)))))) = _
  rw [h1]
  congr 1
  apply scanLinks_fuel
  simp [List.length_append]
  omega

/-! ## Interleavings of links and plain text

`weave t0 items` is the input string t0 ++ [a1](b1) ++ t1 ++ [a2](b2) ++ ...
described by the deduplication claim; `weaveOut` is the output the callback
semantics prescribes for it, threading the closure state left to right. -/

def weave : List Char → List ((List Char × List Char) × List Char) → List Char
  | t0, [] => t0
  | t0, ((a, b), t) :: more => t0 ++ (rawLink a b ++ weave t more)

def weaveOut (opts : LinkOptions) :
    List Char → List ((List Char × List Char) × List Char) → LinkState → List Char
  | t0, [], _ => t0
  | t0, ((a, b), t) :: more, st =>
    t0 ++ ((stepLink opts st a b).1 ++ weaveOut opts t more (stepLink opts st a b).2)

/-- Well-formedness making each woven link a regex match: nonempty label
without `]`, nonempty target without `)`, and no `[` in the following
plain-text segment. -/
def wfItems (items : List ((List Char × List Char) × List Char)) : Prop :=
  ∀ it ∈ items, it.1.1 ≠ [] ∧ ']' ∉ it.1.1 ∧ it.1.2 ≠ [] ∧ ')' ∉ it.1.2 ∧ '[' ∉ it.2

theorem scanLinks_weave (opts : LinkOptions) :
    ∀ (items : List ((List Char × List Char) × List Char)) (t0 : List Char)
      (st : LinkState), '[' ∉ t0 → wfItems items →
      scanLinks opts (weave t0 items).length st (weave t0 items) =
        weaveOut opts t0 items st := by
  intro items
  induction items with
  | nil =>
    intro t0 st ht0 _
    simp only [weave, weaveOut]
    exact scanLinks_no_bracket opts t0 ht0 t0.length st
  | cons item more ih =>
    obtain ⟨⟨a, b⟩, t⟩ := item
    intro t0 st ht0 hwf
    obtain ⟨ha, ha2, hb, hb2, htN⟩ := hwf ((a, b), t) (List.mem_cons_self _ _)
    have hwf' : wfItems more := fun it hit => hwf it (List.mem_cons_of_mem _ hit)
    simp only [weave, weaveOut]
    rw [scanLinks_skip opts t0 ht0 (rawLink a b ++ weave t more) st,
      scanLinks_link opts a b (weave t more) st ha ha2 hb hb2,
      ih t (stepLink opts st a b).2 htN hwf']

/-- The output shape with every link replaced by the same reference text. -/
def weaveRef (r : List Char) : List Char → List (List Char) → List Char
  | t0, [] => t0
  | t0, t :: ts => t0 ++ (r ++ weaveRef r t ts)

theorem weaveOut_same (opts : LinkOptions) (U : List Char) :
    ∀ (ts : List (List Char)) (t0 : List Char) (st : LinkState),
      st.linkMap.lookup U = some 1 →
      weaveOut opts t0 (ts.map (fun t => ((U, U), t))) st =
        weaveRef (renderRef opts 1 U) t0 ts := by
  intro ts
  induction ts with
  | nil =>
    intro t0 st _
    rfl
  | cons t ts ih =>
    intro t0 st hst
    have hstep : stepLink opts st U U = (renderRef opts 1 U, st) := by
      simp [stepLink, hst]
    simp only [List.map_cons, weaveOut, weaveRef, hstep]
    rw [ih t st hst]

theorem processMarkdownLinks_weaveRef (opts : LinkOptions) (U t0 : List Char)
    (ts : List (List Char)) (hU : U ≠ []) (hU2 : ']' ∉ U) (hU3 : ')' ∉ U)
    (ht0 : '[' ∉ t0) (hts : ∀ t ∈ ts, '[' ∉ t) :
    processMarkdownLinks (weave t0 (ts.map (fun t => ((U, U), t)))) opts =
      weaveRef (renderRef opts 1 U) t0 ts := by
  have hwf : wfItems (ts.map (fun t => ((U, U), t))) := by
    intro it hit
    simp only [List.mem_map] at hit
    obtain ⟨t, hmem, rfl⟩ := hit
    exact ⟨hU, hU2, hU, hU3, hts t hmem⟩
  unfold processMarkdownLinks
  rw [scanLinks_weave opts (ts.map (fun t => ((U, U), t))) t0 initLinkState ht0 hwf]
  cases ts with
  | nil => rfl
  | cons t ts' =>
    have hstep1 : stepLink opts initLinkState U U =
        (renderRef opts 1 U, LinkState.mk [(U, 1)] 2) := by
      simp [stepLink, initLinkState]
    have hlk : (LinkState.mk [(U, 1)] 2).linkMap.lookup U = some 1 := by
      simp [List.lookup]
    simp only [List.map_cons, weaveOut, hstep1]
    rw [weaveOut_same opts U ts' t (LinkState.mk [(U, 1)] 2) hlk]
    rfl

/-- C1 counterexample: the input "[x [u](u)" contains the self-identical
link "[u](u)" once, surrounded by the other text "[x ".  The claim as
stated (arbitrary interspersed text) requires the occurrence to be
rewritten to reference ordinal 1; instead the regex match starting at the
first bracket captures label "x [u" and target "u", a non-self-identical
link, so the input is returned unchanged and no reference is produced. -/
theorem processMarkdownLinks_arbitrary_text_counterexample :
    List.IsInfix ("[u](u)".toList) ("[x [u](u)".toList) ∧
    processMarkdownLinks ("[x [u](u)".toList) defaultLinkOptions =
      ("[x [u](u)".toList) ∧
    ¬ List.IsInfix (renderRef defaultLinkOptions 1 ("u".toList))
        (processMarkdownLinks ("[x [u](u)".toList) defaultLinkOptions) := by
  decide

/-- C1 amended: provided every interspersed plain-text segment is free of
the character `[` and each link's label has no `]` and target has no `)`
(so each written link is what the regex matches), the deduplicator
(1) rewrites all k occurrences of the self-identical link [U](U) to the
single reference ordinal 1, (2) assigns ordinals in first-seen order
starting at 1 - distinct targets U1 then U2 receive ordinals 1 then 2 -
and (3) returns every matched link whose label differs from its target
byte-for-byte unchanged. -/
theorem processMarkdownLinks_dedup (opts : LinkOptions)
    (U U1 U2 a b t0 t1 t2 : List Char) (ts : List (List Char))
    (hU : U ≠ []) (hUa : ']' ∉ U) (hUb : ')' ∉ U)
    (hU1 : U1 ≠ []) (hU1a : ']' ∉ U1) (hU1b : ')' ∉ U1)
    (hU2 : U2 ≠ []) (hU2a : ']' ∉ U2) (hU2b : ')' ∉ U2)
    (hUU : U1 ≠ U2)
    (hab : a ≠ b) (ha : a ≠ []) (haa : ']' ∉ a) (hb : b ≠ []) (hbb : ')' ∉ b)
    (ht0 : '[' ∉ t0) (ht1 : '[' ∉ t1) (ht2 : '[' ∉ t2)
    (hts : ∀ t ∈ ts, '[' ∉ t) :
    processMarkdownLinks (weave t0 (ts.map (fun t => ((U, U), t)))) opts =
      weaveRef (renderRef opts 1 U) t0 ts ∧
    processMarkdownLinks (weave t0 [((U1, U1), t1), ((U2, U2), t2)]) opts =
      t0 ++ (renderRef opts 1 U1 ++ (t1 ++ (renderRef opts 2 U2 ++ t2))) ∧
    processMarkdownLinks (weave t0 [((a, b), t1)]) opts =
      t0 ++ (rawLink a b ++ t1) := by
  refine ⟨processMarkdownLinks_weaveRef opts U t0 ts hU hUa hUb ht0 hts, ?_, ?_⟩
  · have hwf : wfItems [((U1, U1), t1), ((U2, U2), t2)] := by
      intro it hit
      rcases List.mem_cons.mp hit with rfl | hit'
      · exact ⟨hU1, hU1a, hU1, hU1b, ht1⟩
      · rcases List.mem_cons.mp hit' with rfl | hit''
        · exact ⟨hU2, hU2a, hU2, hU2b, ht2⟩
        · simp at hit''
    unfold processMarkdownLinks
    rw [scanLinks_weave opts [((U1, U1), t1), ((U2, U2), t2)] t0 initLinkState ht0 hwf]
    have hstep1 : stepLink opts initLinkState U1 U1 =
        (renderRef opts 1 U1, LinkState.mk [(U1, 1)] 2) := by
      simp [stepLink, initLinkState]
    have hlk : (LinkState.mk [(U1, 1)] 2).linkMap.lookup U2 = none := by
      have hne : (U2 == U1) = false := by
        simp
        exact fun e => hUU e.symm
      simp [List.lookup, hne]
    have hstep2 : stepLink opts (LinkState.mk [(U1, 1)] 2) U2 U2 =
        (renderRef opts 2 U2, LinkState.mk [(U1, 1), (U2, 2)] 3) := by
      simp [stepLink, hlk]
    simp only [weaveOut, hstep1, hstep2]
  · have hwf : wfItems [((a, b), t1)] := by
      intro it hit
      rcases List.mem_cons.mp hit with rfl | hit'
      · exact ⟨ha, haa, hb, hbb, ht1⟩
      · simp at hit'
    unfold processMarkdownLinks
    rw [scanLinks_weave opts [((a, b), t1)] t0 initLinkState ht0 hwf]
    have hstep : stepLink opts initLinkState a b = (rawLink a b, initLinkState) := by
      simp [stepLink, hab]
    simp only [weaveOut, hstep]

/-- Witness for the amended deduplication claim: two copies of [u](u) in
"s [u](u) m [u](u)e" both become reference 1; "s [v](v) m [w](w)e" gets
ordinals 1 then 2; and "s [x](y) m " keeps [x](y) unchanged. -/
theorem processMarkdownLinks_dedup_witness :
    processMarkdownLinks
        (weave ("s ".toList)
          (([" m ".toList, "e".toList]).map (fun t => (("u".toList, "u".toList), t))))
        defaultLinkOptions =
      weaveRef (renderRef defaultLinkOptions 1 ("u".toList)) ("s ".toList)
        [" m ".toList, "e".toList] ∧
    processMarkdownLinks
        (weave ("s ".toList)
          [(("v".toList, "v".toList), " m ".toList), (("w".toList, "w".toList), "e".toList)])
        defaultLinkOptions =
      ("s ".toList) ++ (renderRef defaultLinkOptions 1 ("v".toList) ++
        (" m ".toList ++ (renderRef defaultLinkOptions 2 ("w".toList) ++ "e".toList))) ∧
    processMarkdownLinks
        (weave ("s ".toList) [(("x".toList, "y".toList), " m ".toList)])
        defaultLinkOptions =
      ("s ".toList) ++ (rawLink ("x".toList) ("y".toList) ++ " m ".toList) :=
  processMarkdownLinks_dedup defaultLinkOptions ("u".toList) ("v".toList) ("w".toList)
    ("x".toList) ("y".toList) ("s ".toList) (" m ".toList) ("e".toList)
    [" m ".toList, "e".toList]
    (by decide) (by decide) (by decide) (by decide) (by decide) (by decide)
    (by decide) (by decide) (by decide) (by decide) (by decide) (by decide)
    (by decide) (by decide) (by decide) (by decide) (by decide) (by decide)
    (by decide)
